import Mathlib

set_option maxHeartbeats 1000000
set_option maxRecDepth 20000

/-!
Verification of the jobs-kenya-backend ingestion pipeline (src/main.py).

The Python source is shallowly embedded: pure helper functions become Lean
functions over `List Char` / `String`, the per-listing extraction logic of the
scrapers becomes a function from raw extracted element texts to an optional
record, the orchestrator `run_all` takes the per-adapter fetch outcomes
(normal return or raised exception) as input, and the Flask/scheduler/file
side effects are modelled as explicit state transitions.
-/

namespace JobsKenya

/-- ASCII whitespace as recognized by Python `str.split()` / `str.strip()`. -/
def pyIsSpace (c : Char) : Bool :=
  c == ' ' || c == '\t' || c == '\n' || c == '\r' || c == '\x0b' || c == '\x0c'

/-- Split at every whitespace character (empty pieces kept, as a structural
helper for `words`). -/
def splitWs : List Char → List (List Char)
  | [] => [[]]
  | c :: cs =>
    if pyIsSpace c then [] :: splitWs cs
    else
      match splitWs cs with
      | [] => [[c]]
      | w :: ws => (c :: w) :: ws

/-- The word list produced by Python `str.split()` (split on whitespace runs,
dropping empty fields). -/
def words (l : List Char) : List (List Char) :=
  (splitWs l).filter (fun w => !w.isEmpty)

theorem splitWs_ne_nil (l : List Char) : splitWs l ≠ [] := by
  cases l with
  | nil => simp [splitWs]
  | cons c cs =>
    simp only [splitWs]
    split
    · simp
    · split <;> simp

theorem headD_splitWs (l : List Char) :
    (splitWs l).headD [] = l.takeWhile (fun d => !pyIsSpace d) := by
  induction l with
  | nil => rfl
  | cons c cs ih =>
    by_cases h : pyIsSpace c
    · simp [splitWs, h, List.takeWhile_cons]
    · simp only [splitWs, h, Bool.false_eq_true, if_false]
      cases hs : splitWs cs with
      | nil => exact absurd hs (splitWs_ne_nil cs)
      | cons w ws =>
        rw [hs] at ih
        simp only [List.headD_cons] at ih
        simp [List.takeWhile_cons, h, ih]

theorem words_nil : words [] = [] := rfl

theorem words_cons_space {c : Char} (h : pyIsSpace c = true) (cs : List Char) :
    words (c :: cs) = words cs := by
  simp [words, splitWs, h]

theorem filter_tail_splitWs (cs : List Char) :
    ((splitWs cs).tail).filter (fun w => !w.isEmpty)
      = words (cs.dropWhile (fun d => !pyIsSpace d)) := by
  induction cs with
  | nil => rfl
  | cons c cs2 ih =>
    by_cases h : pyIsSpace c
    · rw [List.dropWhile_cons]
      simp only [h, Bool.not_true, Bool.false_eq_true, if_false]
      rw [words_cons_space h]
      simp [splitWs, h, words]
    · rw [List.dropWhile_cons]
      have hb : pyIsSpace c = false := by simpa using h
      simp only [hb, Bool.not_false, if_true]
      simp only [splitWs, hb, Bool.false_eq_true, if_false]
      cases hs : splitWs cs2 with
      | nil => exact absurd hs (splitWs_ne_nil cs2)
      | cons w ws =>
        rw [hs] at ih
        simpa using ih

theorem words_cons_nonspace {c : Char} (h : pyIsSpace c = false) (cs : List Char) :
    words (c :: cs)
      = (c :: cs.takeWhile (fun d => !pyIsSpace d))
        :: words (cs.dropWhile (fun d => !pyIsSpace d)) := by
  have hhead := headD_splitWs cs
  have htail := filter_tail_splitWs cs
  simp only [words, splitWs, h, Bool.false_eq_true, if_false]
  cases hs : splitWs cs with
  | nil => exact absurd hs (splitWs_ne_nil cs)
  | cons w ws =>
    rw [hs] at hhead htail
    simp only [List.headD_cons] at hhead
    simp only [List.tail_cons] at htail
    subst hhead
    simp only [List.filter_cons, List.isEmpty_cons, Bool.not_false, if_true]
    rw [htail]
    rfl

/-- Python `str.strip()` on a list of characters. -/
def stripL (l : List Char) : List Char :=
  ((l.dropWhile pyIsSpace).reverse.dropWhile pyIsSpace).reverse

/-- Python `' '.join(ws)`. -/
def joinWords : List (List Char) → List Char
  | [] => []
  | [w] => w
  | w :: w2 :: ws => w ++ ' ' :: joinWords (w2 :: ws)

/-- Body of `clean`: `' '.join(t.strip().split())` on characters. -/
def cleanL (l : List Char) : List Char :=
  joinWords (words (stripL l))

/-- `clean(t)` from src/main.py: `' '.join((t or '').strip().split())`.
A `none` argument models Python `None`. -/
def clean (t : Option String) : String :=
  ⟨cleanL (t.getD "").data⟩

/-- Python prefix test on character lists. -/
def isPrefOf : List Char → List Char → Bool
  | [], _ => true
  | _ :: _, [] => false
  | a :: as, b :: bs => a == b && isPrefOf as bs

/-- Python substring test `w in t` on character lists. -/
def isSubOf (w : List Char) : List Char → Bool
  | [] => w.isEmpty
  | c :: ts => isPrefOf w (c :: ts) || isSubOf w ts

/-- Python `s.lower()` (ASCII case, as exercised by the pipeline). -/
def pyLower (s : String) : List Char := s.data.map Char.toLower

/-- The fixed county list of `extract_county`. -/
def counties : List String :=
  ["Nairobi","Mombasa","Kisumu","Nakuru","Eldoret","Kiambu",
   "Machakos","Nyeri","Meru","Kakamega","Kisii","Kilifi",
   "Embu","Garissa","Bungoma","Siaya","Migori","Kajiado",
   "Laikipia","Kericho","Nandi","Bomet","Baringo","Kwale",
   "Kitui","Makueni","Turkana","Homa Bay","Nyamira","Mandera",
   "Wajir","Marsabit","Narok","Vihiga","Lamu","Thika"]

/-- `extract_county(text)` from src/main.py: first county whose lowercase name
occurs in the lowered text, else Remote on remote/online, else Nairobi. -/
def extract_county (text : Option String) : String :=
  let t := pyLower (text.getD "")
  match counties.find? (fun c => isSubOf (pyLower c) t) with
  | some c => c
  | none => if isSubOf "remote".data t || isSubOf "online".data t then "Remote" else "Nairobi"

/-- `detect_type(text)` from src/main.py: ordered keyword rules, first match wins. -/
def detect_type (text : Option String) : String :=
  let t := pyLower (text.getD "")
  if ["intern","attachment","graduate trainee"].any (fun w => isSubOf w.data t) then "Internship"
  else if ["part-time","part time","casual"].any (fun w => isSubOf w.data t) then "Part-Time"
  else if ["government","county","ministry","public service","psc","civil service"].any
      (fun w => isSubOf w.data t) then "Government"
  else if ["ngo","unicef","undp","wfp","unhcr","oxfam","red cross","non-profit","foundation"].any
      (fun w => isSubOf w.data t) then "NGO"
  else if ["remote","work from home","wfh"].any (fun w => isSubOf w.data t) then "Remote"
  else if ["contract","consultant","temporary","freelance"].any (fun w => isSubOf w.data t) then
    "Contract"
  else "Full-Time"

/-- The rule table of `detect_type`, in source order, used to state rule-order
properties. -/
def typeRules : List (List String × String) :=
  [(["intern","attachment","graduate trainee"], "Internship"),
   (["part-time","part time","casual"], "Part-Time"),
   (["government","county","ministry","public service","psc","civil service"], "Government"),
   (["ngo","unicef","undp","wfp","unhcr","oxfam","red cross","non-profit","foundation"], "NGO"),
   (["remote","work from home","wfh"], "Remote"),
   (["contract","consultant","temporary","freelance"], "Contract")]

/-- Whether a rule of `typeRules` fires on a (lowered) text. -/
def ruleHits (t : List Char) (r : List String × String) : Bool :=
  r.1.any (fun w => isSubOf w.data t)

/-- `detect_sector(text)` from src/main.py. -/
def detect_sector (text : Option String) : String :=
  let t := pyLower (text.getD "")
  if ["software","developer","ict","data","cyber","system","network","tech"].any
      (fun w => isSubOf w.data t) then "ICT & Technology"
  else if ["nurse","doctor","medical","health","clinical","pharmacy","lab"].any
      (fun w => isSubOf w.data t) then "Health & Medicine"
  else if ["finance","account","audit","tax","banking","economist"].any
      (fun w => isSubOf w.data t) then "Finance & Banking"
  else if ["engineer","civil","mechanical","electrical","construction"].any
      (fun w => isSubOf w.data t) then "Engineering"
  else if ["teach","tutor","lecturer","school","education","training"].any
      (fun w => isSubOf w.data t) then "Education"
  else if ["farm","agri","crop","livestock","food","rural"].any
      (fun w => isSubOf w.data t) then "Agriculture"
  else if ["market","sales","brand","advertis","digital"].any
      (fun w => isSubOf w.data t) then "Marketing & Sales"
  else if ["ngo","humanitarian","relief","development","programme"].any
      (fun w => isSubOf w.data t) then "NGO / Non-Profit"
  else if ["legal","lawyer","advocate","court","compliance"].any
      (fun w => isSubOf w.data t) then "Legal"
  else if ["driver","transport","logistics","supply","fleet"].any
      (fun w => isSubOf w.data t) then "Transport & Logistics"
  else if ["hotel","hospitality","tour","chef","cook","restaurant"].any
      (fun w => isSubOf w.data t) then "Hospitality & Tourism"
  else "General"

/-! Email extraction, lines 177-179 of `scrape_brightermonday`:
`re.findall(r'[a-zA-Z0-9._%+\-]+@[a-zA-Z0-9.\-]+\.[a-zA-Z]\x7b2,\x7d', desc)`,
keeping `emails[0]` if any. The fixed pattern is embedded with Python's
leftmost, greedy-with-backtracking matching discipline. -/

/-- Character class `[a-zA-Z0-9._%+\-]` (local part). -/
def isEmailA (c : Char) : Bool :=
  c.isAlpha || c.isDigit || c == '.' || c == '_' || c == '%' || c == '+' || c == '-'

/-- Character class `[a-zA-Z0-9.\-]` (domain part). -/
def isEmailB (c : Char) : Bool :=
  c.isAlpha || c.isDigit || c == '.' || c == '-'

/-- Backtracking search for the greedy split of the maximal domain-class run
`b` into `domain ++ dot ++ letters`, trying the largest dot position first,
as the regex engine does for the suffix pattern dot-then-two-or-more-letters. -/
def emailDot (b : List Char) : Nat → Option (List Char)
  | 0 => none
  | k + 1 =>
    if b.getD (k + 1) ' ' == '.' then
      let ls := (b.drop (k + 2)).takeWhile Char.isAlpha
      if 2 ≤ ls.length then some (b.take (k + 1) ++ '.' :: ls) else emailDot b k
    else emailDot b k

/-- Attempt to match the email regex at the start of `s` (greedy local part,
mandatory at-sign, greedy domain with backtracking for the final TLD). -/
def emailMatchAt (s : List Char) : Option (List Char) :=
  let a := s.takeWhile isEmailA
  if a.isEmpty then none
  else
    match s.drop a.length with
    | '@' :: s2 =>
      let b := s2.takeWhile isEmailB
      match emailDot b (b.length - 1) with
      | some tail => some (a ++ '@' :: tail)
      | none => none
    | _ => none

/-- Leftmost regex match in the text (`re.findall(...)[0]`). -/
def firstEmail : List Char → Option (List Char)
  | [] => none
  | c :: cs =>
    match emailMatchAt (c :: cs) with
    | some e => some e
    | none => firstEmail cs

/-- `emails[0] if emails else ''` on a description text. -/
def extract_email (desc : String) : String :=
  match firstEmail desc.data with
  | some e => ⟨e⟩
  | none => ""

/-! The canonical record and the deduplicator of src/main.py. -/

/-- A scraped job record; each key of the Python dict becomes a field
(the `type` key is rendered `jtype`). -/
structure Job where
  id : String
  title : String
  company : String
  location : String
  county : String
  jtype : String
  sector : String
  salary : String
  deadline : String
  link : String
  apply_email : String
  description : String
  source : String
  scraped_at : String
deriving DecidableEq

/-- Dedup identity key, line 98: the f-string
`title.lower()` then a bar then `company.lower()`, as a character list. -/
def dedupKey (j : Job) : List Char :=
  j.title.data.map Char.toLower ++ '|' :: j.company.data.map Char.toLower

/-- The seen-set loop of `deduplicate`, generic in the key so the spec's
truncated-key variant can be compared with the source's key. -/
def dedupByGo (key : Job → List Char) : List (List Char) → List Job → List Job
  | _, [] => []
  | seen, j :: rest =>
    if key j ∈ seen then dedupByGo key seen rest
    else j :: dedupByGo key (key j :: seen) rest

/-- First-seen-wins dedup by a key function. -/
def dedupBy (key : Job → List Char) (jobs : List Job) : List Job :=
  dedupByGo key [] jobs

/-- `deduplicate(jobs)` from src/main.py. -/
def deduplicate (jobs : List Job) : List Job :=
  dedupBy dedupKey jobs

/-- Python lexicographic string comparison (code-point order) as a Bool. -/
def lexLe : List Char → List Char → Bool
  | [], _ => true
  | _ :: _, [] => false
  | a :: as, b :: bs =>
    if a.toNat < b.toNat then true
    else if b.toNat < a.toNat then false
    else lexLe as bs

/-- Ordering used by `all_jobs.sort(key=lambda j: j.get('scraped_at',''), reverse=True)`:
`a` may come before `b` iff `b`'s key is at most `a`'s (stable, descending). -/
def jobLe (a b : Job) : Bool :=
  lexLe b.scraped_at.data a.scraped_at.data

/-- The published output dict of `run_all`. -/
structure Snapshot where
  total : Nat
  scraped_at : String
  jobs : List Job
deriving DecidableEq

/-- The adapter loop of `run_all`: each `fn()` either returned a record list
or raised; `all_jobs.extend(fn())` inside `try` or skip on `except`. -/
def collect : List (Except String (List Job)) → List Job
  | [] => []
  | Except.ok js :: rest => js ++ collect rest
  | Except.error _ :: rest => collect rest

/-- `run_all` from src/main.py, taking the per-adapter fetch outcomes and the
clock reading as inputs: collect, deduplicate, stable-sort descending by
`scraped_at`, publish with `total = len(all_jobs)`. -/
def run_all (results : List (Except String (List Job))) (now : String) : Snapshot :=
  let all_jobs := deduplicate (collect results)
  let sorted := all_jobs.mergeSort jobLe
  { total := sorted.length, scraped_at := now, jobs := sorted }

/-! The six scraper adapters. Network fetching and DOM selection are the
environment: a `RawItem` carries, for one listing block, the text of each
element the scraper's sub-selectors found (or `none` when absent), the
`href` of the first link, the detail-page data for BrighterMonday, and the
clock reading `datetime.now().isoformat()` taken when the record is built.
The per-item `try` bodies of the scrapers are total once the element texts
are given, so the embedding keeps every block. -/

structure RawItem where
  title_el : Option String
  company_el : Option String
  location_el : Option String
  deadline_el : Option String
  salary_el : Option String
  link_el : Option String
  desc_el : Option String
  detail_ok : Bool
  now : String
deriving DecidableEq

/-- `clean(el.get_text()) if el else default`. -/
def cleanElse (o : Option String) (d : String) : String :=
  match o with
  | some s => clean (some s)
  | none => d

/-- `base + href if href.startswith('/') else href or base`. -/
def mkLink (base href : String) : String :=
  if isPrefOf "/".data href.data then base ++ href
  else if href = "" then base else href

/-- One listing block of `scrape_myjobinkenya` (lines 116-141). -/
def myjob_item (n : Nat) (r : RawItem) : Option Job :=
  let title := clean r.title_el
  if title = "" then none
  else
    let company := cleanElse r.company_el "Not specified"
    let location := cleanElse r.location_el "Kenya"
    let deadline := cleanElse r.deadline_el ""
    let link := mkLink "https://www.myjobinkenya.com" (r.link_el.getD "")
    some { id := "myjob-" ++ toString n, title := title, company := company,
           location := location, county := extract_county (some location),
           jtype := detect_type (some (title ++ " " ++ company)),
           sector := detect_sector (some title),
           salary := "Not stated", deadline := deadline,
           link := link, apply_email := "", description := "",
           source := "MyJobInKenya", scraped_at := r.now }

/-- One listing block of `scrape_brightermonday` (lines 155-194), including
the optional detail-page fetch that yields description and email. -/
def bm_item (n : Nat) (r : RawItem) : Option Job :=
  let base := "https://www.brightermonday.co.ke"
  let title := clean r.title_el
  if title = "" then none
  else
    let company := cleanElse r.company_el "Not specified"
    let location := cleanElse r.location_el "Kenya"
    let salary := cleanElse r.salary_el "Not stated"
    let link := mkLink base (r.link_el.getD "")
    let fetched := (link != "") && (link != base) && r.detail_ok
    let desc := if fetched then cleanElse r.desc_el "" else ""
    let email := if fetched then extract_email desc else ""
    some { id := "bm-" ++ toString n, title := title, company := company,
           location := location, county := extract_county (some location),
           jtype := detect_type (some (title ++ " " ++ company)),
           sector := detect_sector (some title),
           salary := salary, deadline := "",
           link := link, apply_email := email,
           description := ⟨desc.data.take 2000⟩,
           source := "BrighterMonday", scraped_at := r.now }

/-- One listing block of `scrape_fuzu` (lines 208-232). -/
def fuzu_item (n : Nat) (r : RawItem) : Option Job :=
  let title := clean r.title_el
  if title = "" then none
  else
    let company := cleanElse r.company_el "Not specified"
    let location := cleanElse r.location_el "Kenya"
    let link := mkLink "https://fuzu.com" (r.link_el.getD "")
    some { id := "fuzu-" ++ toString n, title := title, company := company,
           location := location, county := extract_county (some location),
           jtype := detect_type (some (title ++ " " ++ company)),
           sector := detect_sector (some title),
           salary := "Not stated", deadline := "",
           link := link, apply_email := "", description := "",
           source := "Fuzu", scraped_at := r.now }

/-- One listing block of `scrape_public_service` (lines 247-266); titles
shorter than 5 characters are skipped too. -/
def psc_item (n : Nat) (r : RawItem) : Option Job :=
  let title := clean r.title_el
  if title = "" ∨ title.length < 5 then none
  else
    let link := mkLink "https://www.publicservice.go.ke" (r.link_el.getD "")
    some { id := "psc-" ++ toString n, title := title,
           company := "Public Service Commission Kenya",
           location := "Kenya", county := "Nairobi",
           jtype := "Government", sector := "Government / Civil Service",
           salary := "Government Scale", deadline := "",
           link := link, apply_email := "info@publicservice.go.ke",
           description := "",
           source := "Public Service Commission", scraped_at := r.now }

/-- One listing block of `scrape_ngo_jobs` (lines 279-304); note the
different link rule `href if href.startswith('http') else base + href`. -/
def ngo_item (n : Nat) (r : RawItem) : Option Job :=
  let title := clean r.title_el
  if title = "" then none
  else
    let company := cleanElse r.company_el "NGO"
    let location := cleanElse r.location_el "Kenya"
    let deadline := cleanElse r.deadline_el ""
    let href := r.link_el.getD ""
    let link := if isPrefOf "http".data href.data then href
                else "https://www.ngojobskenya.com" ++ href
    some { id := "ngo-" ++ toString n, title := title, company := company,
           location := location, county := extract_county (some location),
           jtype := "NGO", sector := "NGO / Non-Profit",
           salary := "Not stated", deadline := deadline,
           link := link, apply_email := "", description := "",
           source := "NGO Jobs Kenya", scraped_at := r.now }

/-- One listing block of `scrape_career_point` (lines 318-344). -/
def cp_item (n : Nat) (r : RawItem) : Option Job :=
  let title := clean r.title_el
  if title = "" then none
  else
    let company := cleanElse r.company_el "Not specified"
    let location := cleanElse r.location_el "Kenya"
    let deadline := cleanElse r.deadline_el ""
    let link := mkLink "https://www.careerpointkenya.co.ke" (r.link_el.getD "")
    some { id := "cp-" ++ toString n, title := title, company := company,
           location := location, county := extract_county (some location),
           jtype := detect_type (some (title ++ " " ++ company)),
           sector := detect_sector (some title),
           salary := "Not stated", deadline := deadline,
           link := link, apply_email := "", description := "",
           source := "Career Point Kenya", scraped_at := r.now }

/-- The accumulation loop shared by the scrapers: `jobs.append(...)` with
ids numbered by `len(jobs)` at append time. -/
def itemsGo (item : Nat → RawItem → Option Job) : Nat → List RawItem → List Job
  | _, [] => []
  | n, r :: rs =>
    match item n r with
    | some j => j :: itemsGo item (n + 1) rs
    | none => itemsGo item n rs

def scrape_myjobinkenya (rs : List RawItem) : List Job := itemsGo myjob_item 0 rs

def scrape_brightermonday (rs : List RawItem) : List Job := itemsGo bm_item 0 rs

def scrape_fuzu (rs : List RawItem) : List Job := itemsGo fuzu_item 0 rs

def scrape_public_service (rs : List RawItem) : List Job := itemsGo psc_item 0 rs

def scrape_ngo_jobs (rs : List RawItem) : List Job := itemsGo ngo_item 0 rs

def scrape_career_point (rs : List RawItem) : List Job := itemsGo cp_item 0 rs

/-! The manual-trigger route `manual_scrape` (lines 457-467). Thread spawning
is modelled by counting runs in flight: `threading.Thread(target=run_all)`
followed by `thread.start()` adds one in-flight run. -/

structure SchedState where
  inflight : Nat
deriving DecidableEq

/-- Responses of the `/scrape` route. `alreadyRunning` is the result the spec
expects for a trigger during a run; the code never produces it. -/
inductive ScrapeResp where
  | unauthorized
  | started
  | alreadyRunning
deriving DecidableEq

/-- `manual_scrape` from src/main.py: reject a bad token with 401, otherwise
unconditionally start a new background `run_all` thread and report success. -/
def manual_scrape (adminSecret token : String) (s : SchedState) :
    SchedState × ScrapeResp :=
  if token ≠ adminSecret then (s, ScrapeResp.unauthorized)
  else ({ inflight := s.inflight + 1 }, ScrapeResp.started)

/-! The snapshot store. `run_all` persists with
`open(OUTPUT_FILE, 'w')` + `json.dump`: the open truncates the file in place
and the dump then appends the serialized text, so the observable file
contents during a publish are every prefix of the new serialization (the
empty file being the post-truncation state); before the write begins the
reader sees the previous contents. -/

/-- Hexadecimal digit used by JSON control-character escapes. -/
def hexDigit (n : Nat) : Char :=
  if n < 10 then Char.ofNat (48 + n) else Char.ofNat (87 + n)

/-- JSON escaping of one character, per `json.dump(..., ensure_ascii=False)`. -/
def jEscChar (c : Char) : List Char :=
  if c == '"' then ['\\', '"']
  else if c == '\\' then ['\\', '\\']
  else if c == '\x08' then ['\\', 'b']
  else if c == '\x0c' then ['\\', 'f']
  else if c == '\n' then ['\\', 'n']
  else if c == '\r' then ['\\', 'r']
  else if c == '\t' then ['\\', 't']
  else if c.toNat < 32 then
    ['\\', 'u', '0', '0', hexDigit (c.toNat / 16), hexDigit (c.toNat % 16)]
  else [c]

/-- A JSON string literal. -/
def jstr (s : String) : String :=
  ⟨'"' :: (s.data.map jEscChar).flatten ++ ['"']⟩

/-- One job object as `json.dump` with `indent=2` renders it inside the
`jobs` array. -/
def dumpJob (j : Job) : String :=
  "    \x7b\n" ++
  "      " ++ jstr "id" ++ ": " ++ jstr j.id ++ ",\n" ++
  "      " ++ jstr "title" ++ ": " ++ jstr j.title ++ ",\n" ++
  "      " ++ jstr "company" ++ ": " ++ jstr j.company ++ ",\n" ++
  "      " ++ jstr "location" ++ ": " ++ jstr j.location ++ ",\n" ++
  "      " ++ jstr "county" ++ ": " ++ jstr j.county ++ ",\n" ++
  "      " ++ jstr "type" ++ ": " ++ jstr j.jtype ++ ",\n" ++
  "      " ++ jstr "sector" ++ ": " ++ jstr j.sector ++ ",\n" ++
  "      " ++ jstr "salary" ++ ": " ++ jstr j.salary ++ ",\n" ++
  "      " ++ jstr "deadline" ++ ": " ++ jstr j.deadline ++ ",\n" ++
  "      " ++ jstr "link" ++ ": " ++ jstr j.link ++ ",\n" ++
  "      " ++ jstr "apply_email" ++ ": " ++ jstr j.apply_email ++ ",\n" ++
  "      " ++ jstr "description" ++ ": " ++ jstr j.description ++ ",\n" ++
  "      " ++ jstr "source" ++ ": " ++ jstr j.source ++ ",\n" ++
  "      " ++ jstr "scraped_at" ++ ": " ++ jstr j.scraped_at ++ "\n" ++
  "    \x7d"

/-- The `jobs` array rendering. -/
def dumpJobs : List Job → String
  | [] => "[]"
  | j :: js => "[\n" ++ String.intercalate ",\n" ((j :: js).map dumpJob) ++ "\n  ]"

/-- The serialized snapshot document written by `json.dump(output, f,
ensure_ascii=False, indent=2)`. -/
def dumpSnapshot (s : Snapshot) : String :=
  "\x7b\n  " ++ jstr "total" ++ ": " ++ toString s.total ++ ",\n  " ++
  jstr "scraped_at" ++ ": " ++ jstr s.scraped_at ++ ",\n  " ++
  jstr "jobs" ++ ": " ++ dumpJobs s.jobs ++ "\n\x7d"

/-- The file contents observable while the in-place write of `content` is in
progress: truncation first, then each prefix as bytes are appended. -/
def writeInPlaceStates (content : String) : List String :=
  (List.range (content.length + 1)).map (fun k => ⟨content.data.take k⟩)

/-- Everything a concurrent reader of OUTPUT_FILE can observe across a
publish replacing `prev` by `content`. -/
def observableDuring (prev content : String) : List String :=
  prev :: writeInPlaceStates content

/-! Definitions following the spec's words, for comparison against the
source functions above. -/

/-- The spec's dedup identity key (section 4.4): both components truncated to
a bounded prefix length `n`. -/
def specKeyTrunc (n : Nat) (j : Job) : List Char :=
  (j.title.data.map Char.toLower).take n ++ '|' :: (j.company.data.map Char.toLower).take n

/-- The spec's denylist of non-actionable address patterns (section 4.1), its
concretely named entries. -/
def specDenylisted (e : String) : Bool :=
  ["noreply","no-reply","donotreply","example"].any (fun p => isSubOf p.data e.data)

/-! Lemmas about the deduplicator. -/

theorem dedupByGo_idem (key : Job → List Char) :
    ∀ (l : List Job) (seen : List (List Char)),
      dedupByGo key seen (dedupByGo key seen l) = dedupByGo key seen l := by
  intro l
  induction l with
  | nil => intro seen; rfl
  | cons j rest ih =>
    intro seen
    by_cases h : key j ∈ seen
    · simp [dedupByGo, h, ih]
    · simp [dedupByGo, h, ih]

theorem collect_append (xs ys : List (Except String (List Job))) :
    collect (xs ++ ys) = collect xs ++ collect ys := by
  induction xs with
  | nil => rfl
  | cons x rest ih => cases x <;> simp [collect, ih]

theorem run_all_congr {a b : List (Except String (List Job))} (now : String)
    (h : collect a = collect b) : run_all a now = run_all b now := by
  simp [run_all, h]

/-- Claim C4: deduplication is idempotent: `dedupe(dedupe(x)) = dedupe(x)`
for every record sequence `x`. -/
theorem C4_dedupe_idempotent (x : List Job) :
    deduplicate (deduplicate x) = deduplicate x :=
  dedupByGo_idem dedupKey x []

/-- Claim C3: an adapter whose fetch raises contributes zero records, the run
still completes, and the remaining adapters' records are deduplicated,
sorted and published exactly as if the failing adapter had returned nothing. -/
theorem C3_adapter_isolation (pre post : List (Except String (List Job)))
    (e now : String) :
    collect (pre ++ Except.error e :: post) = collect pre ++ collect post
    ∧ run_all (pre ++ Except.error e :: post) now
        = run_all (pre ++ Except.ok [] :: post) now
    ∧ (run_all (pre ++ Except.error e :: post) now).jobs
        = (deduplicate (collect pre ++ collect post)).mergeSort jobLe := by
  have h1 : collect (pre ++ Except.error e :: post) = collect pre ++ collect post := by
    rw [collect_append]; rfl
  have h2 : collect (pre ++ Except.ok [] :: post) = collect pre ++ collect post := by
    rw [collect_append]; rfl
  exact ⟨h1, run_all_congr now (h1.trans h2.symm), by simp [run_all, h1]⟩

/-- Claim C8, counterexample: with one run already in flight, a valid manual
trigger starts a second concurrent run (two in flight) and reports success,
not an already-running result. -/
theorem C8_counterexample :
    (manual_scrape "jobskenya-secret-2025" "jobskenya-secret-2025" ⟨1⟩).1.inflight = 2
    ∧ (manual_scrape "jobskenya-secret-2025" "jobskenya-secret-2025" ⟨1⟩).2
        = ScrapeResp.started
    ∧ ScrapeResp.started ≠ ScrapeResp.alreadyRunning := by
  refine ⟨rfl, rfl, by decide⟩

/-- Claim C8, amended: `manual_scrape` performs no single-flight check: a
trigger with the admin token always starts one more background run and
returns the started result, whatever the number of runs in flight; a trigger
with a wrong token changes nothing and is rejected. -/
theorem C8_amended (adminSecret token : String) (s : SchedState) :
    (token = adminSecret →
      manual_scrape adminSecret token s = (⟨s.inflight + 1⟩, ScrapeResp.started))
    ∧ (token ≠ adminSecret →
      manual_scrape adminSecret token s = (s, ScrapeResp.unauthorized)) := by
  constructor <;> intro h <;> simp [manual_scrape, h]

/-- Witness for C8: the amended theorem at a concrete state with one run in
flight. -/
theorem C8_amended_witness :
    manual_scrape "s" "s" ⟨1⟩ = (⟨2⟩, ScrapeResp.started) :=
  (C8_amended "s" "s" ⟨1⟩).1 rfl

theorem dedupByGo_sublist (key : Job → List Char) :
    ∀ (l : List Job) (seen : List (List Char)), List.Sublist (dedupByGo key seen l) l := by
  intro l
  induction l with
  | nil => intro seen; exact List.Sublist.refl _
  | cons j rest ih =>
    intro seen
    by_cases h : key j ∈ seen
    · simp only [dedupByGo, if_pos h]
      exact (ih seen).cons j
    · simp only [dedupByGo, if_neg h]
      exact (ih (key j :: seen)).cons₂ j

theorem key_not_seen_of_mem_dedupByGo (key : Job → List Char) :
    ∀ (l : List Job) (seen : List (List Char)) (x : Job),
      x ∈ dedupByGo key seen l → key x ∉ seen := by
  intro l
  induction l with
  | nil => intro seen x hx; simp [dedupByGo] at hx
  | cons j rest ih =>
    intro seen x hx
    by_cases h : key j ∈ seen
    · rw [dedupByGo, if_pos h] at hx
      exact ih seen x hx
    · rw [dedupByGo, if_neg h] at hx
      rcases List.mem_cons.mp hx with rfl | hx2
      · exact h
      · intro hmem
        exact ih (key j :: seen) x hx2 (List.mem_cons_of_mem _ hmem)

theorem dedupByGo_pairwise (key : Job → List Char) :
    ∀ (l : List Job) (seen : List (List Char)),
      (dedupByGo key seen l).Pairwise (fun a b => key a ≠ key b) := by
  intro l
  induction l with
  | nil => intro seen; simp [dedupByGo]
  | cons j rest ih =>
    intro seen
    by_cases h : key j ∈ seen
    · rw [dedupByGo, if_pos h]; exact ih seen
    · rw [dedupByGo, if_neg h]
      refine List.Pairwise.cons ?_ (ih (key j :: seen))
      intro b hb heq
      exact key_not_seen_of_mem_dedupByGo key rest (key j :: seen) b hb
        (heq ▸ List.mem_cons_self _ _)

theorem dedupByGo_covers (key : Job → List Char) :
    ∀ (l : List Job) (seen : List (List Char)) (x : Job),
      x ∈ l → key x ∉ seen → ∃ y ∈ dedupByGo key seen l, key y = key x := by
  intro l
  induction l with
  | nil => intro seen x hx; simp at hx
  | cons j rest ih =>
    intro seen x hx hxs
    by_cases h : key j ∈ seen
    · rw [dedupByGo, if_pos h]
      rcases List.mem_cons.mp hx with rfl | hx2
      · exact absurd h hxs
      · exact ih seen x hx2 hxs
    · rw [dedupByGo, if_neg h]
      rcases List.mem_cons.mp hx with rfl | hx2
      · exact ⟨x, List.mem_cons_self _ _, rfl⟩
      · by_cases hk : key x = key j
        · exact ⟨j, List.mem_cons_self _ _, hk.symm⟩
        · have hxs2 : key x ∉ key j :: seen := by
            intro hmem
            rcases List.mem_cons.mp hmem with heq | hmem2
            · exact hk heq
            · exact hxs hmem2
          obtain ⟨y, hy, hyk⟩ := ih (key j :: seen) x hx2 hxs2
          exact ⟨y, List.mem_cons_of_mem _ hy, hyk⟩

theorem dedupByGo_keeps_first (key : Job → List Char) :
    ∀ (l : List Job) (seen : List (List Char)) (i : Nat) (hi : i < l.length),
      key (l.get ⟨i, hi⟩) ∉ seen →
      (∀ (j : Nat) (hj : j < l.length), j < i →
        key (l.get ⟨j, hj⟩) ≠ key (l.get ⟨i, hi⟩)) →
      l.get ⟨i, hi⟩ ∈ dedupByGo key seen l := by
  intro l
  induction l with
  | nil => intro seen i hi; simp at hi
  | cons a rest ih =>
    intro seen i hi hseen hfirst
    cases i with
    | zero =>
      by_cases h : key a ∈ seen
      · exact absurd h hseen
      · rw [dedupByGo, if_neg h]
        exact List.mem_cons_self _ _
    | succ i2 =>
      have hi2 : i2 < rest.length := Nat.lt_of_succ_lt_succ hi
      have hfirst2 : ∀ (j : Nat) (hj : j < rest.length), j < i2 →
          key (rest.get ⟨j, hj⟩) ≠ key (rest.get ⟨i2, hi2⟩) := by
        intro j hj hji
        exact hfirst (j + 1) (Nat.succ_lt_succ hj) (Nat.succ_lt_succ hji)
      by_cases h : key a ∈ seen
      · rw [dedupByGo, if_pos h]
        exact ih seen i2 hi2 hseen hfirst2
      · rw [dedupByGo, if_neg h]
        have hne : key a ≠ key (rest.get ⟨i2, hi2⟩) :=
          hfirst 0 (Nat.succ_pos _) (Nat.succ_pos _)
        have hseen2 : key (rest.get ⟨i2, hi2⟩) ∉ key a :: seen := by
          intro hmem
          rcases List.mem_cons.mp hmem with heq | hmem2
          · exact hne heq.symm
          · exact hseen hmem2
        exact List.mem_cons_of_mem _ (ih (key a :: seen) i2 hi2 hseen2 hfirst2)

/-- Claim C2, amended: the identity key is the full normalized-lowercase
title joined to the full normalized-lowercase company (no prefix
truncation); the output of `deduplicate` is a subsequence of the input in
which no two records share a key, every input key is represented, and any
record whose key is not carried by an earlier record (whatever the sources
involved) is kept. -/
theorem C2_amended (l : List Job) :
    List.Sublist (deduplicate l) l
    ∧ (deduplicate l).Pairwise (fun a b => dedupKey a ≠ dedupKey b)
    ∧ (∀ x ∈ l, ∃ y ∈ deduplicate l, dedupKey y = dedupKey x)
    ∧ (∀ (i : Nat) (hi : i < l.length),
        (∀ (j : Nat) (hj : j < l.length), j < i →
          dedupKey (l.get ⟨j, hj⟩) ≠ dedupKey (l.get ⟨i, hi⟩)) →
        l.get ⟨i, hi⟩ ∈ deduplicate l) :=
  ⟨dedupByGo_sublist dedupKey l [],
   dedupByGo_pairwise dedupKey l [],
   fun x hx => dedupByGo_covers dedupKey l [] x hx (by simp),
   fun i hi hf => dedupByGo_keeps_first dedupKey l [] i hi (by simp) hf⟩

/-- Cross-source records used for the dedup examples: same title and company
up to case, different sources. -/
def jobAcme1 : Job :=
  { id := "bm-0", title := "Accountant", company := "Acme", location := "Kenya",
    county := "Nairobi", jtype := "Full-Time", sector := "Finance & Banking",
    salary := "Not stated", deadline := "", link := "https://a", apply_email := "",
    description := "", source := "BrighterMonday", scraped_at := "2025-01-01T10:00:00" }

def jobAcme2 : Job :=
  { jobAcme1 with
    id := "fuzu-0", title := "ACCOUNTANT", company := "acme",
    source := "Fuzu", scraped_at := "2025-01-01T11:00:00" }

/-- Witness for C2: two records identical up to case from different sources
collapse to the first by input order, and the survivor carries the second
record's key. -/
theorem C2_amended_witness :
    deduplicate [jobAcme1, jobAcme2] = [jobAcme1]
    ∧ ∃ y ∈ deduplicate [jobAcme1, jobAcme2], dedupKey y = dedupKey jobAcme2 :=
  ⟨by decide, (C2_amended [jobAcme1, jobAcme2]).2.2.1 jobAcme2 (by simp)⟩

/-- Claim C2, counterexample: no prefix-truncation bound reproduces the
source's key: for every bound `N`, two records whose lowercase titles agree
on the first `N` characters but differ afterwards are kept apart by the
source's deduplicator and merged by the truncated-key deduplicator. -/
theorem C2_counterexample :
    ¬ ∃ N : Nat, ∀ l : List Job, deduplicate l = dedupBy (specKeyTrunc N) l := by
  rintro ⟨N, hN⟩
  have hlow : Char.toLower 'a' = 'a' := by decide
  have hlowb : Char.toLower 'b' = 'b' := by decide
  set j1 : Job :=
    { id := "x1", title := ⟨List.replicate (N + 1) 'a'⟩, company := "c",
      location := "", county := "", jtype := "", sector := "", salary := "",
      deadline := "", link := "", apply_email := "", description := "",
      source := "s1", scraped_at := "t" } with hj1
  set j2 : Job :=
    { id := "x2", title := ⟨List.replicate N 'a' ++ ['b']⟩, company := "c",
      location := "", county := "", jtype := "", sector := "", salary := "",
      deadline := "", link := "", apply_email := "", description := "",
      source := "s2", scraped_at := "t" } with hj2
  have ht1 : (j1.title.data.map Char.toLower) = List.replicate (N + 1) 'a' := by
    simp [hj1, List.map_replicate, hlow]
  have ht2 : (j2.title.data.map Char.toLower) = List.replicate N 'a' ++ ['b'] := by
    simp [hj2, List.map_replicate, hlow, hlowb]
  have hkey : dedupKey j1 ≠ dedupKey j2 := by
    intro heq
    rw [dedupKey, dedupKey, ht1, ht2] at heq
    have h1 : List.drop N (List.replicate (N + 1) 'a'
        ++ '|' :: (Job.company j1).data.map Char.toLower)
        = 'a' :: '|' :: (Job.company j1).data.map Char.toLower := by
      rw [List.replicate_succ']
      rw [List.append_assoc]
      exact List.drop_left' (List.length_replicate _ _)
    have h2 : List.drop N ((List.replicate N 'a' ++ ['b'])
        ++ '|' :: (Job.company j2).data.map Char.toLower)
        = 'b' :: '|' :: (Job.company j2).data.map Char.toLower := by
      rw [List.append_assoc]
      exact List.drop_left' (List.length_replicate _ _)
    have := congrArg (List.drop N) heq
    rw [h1, h2] at this
    simp at this
  have htrunc : specKeyTrunc N j1 = specKeyTrunc N j2 := by
    rw [specKeyTrunc, specKeyTrunc, ht1, ht2]
    have h1 : List.take N (List.replicate (N + 1) 'a') = List.replicate N 'a' := by
      rw [List.replicate_succ']
      exact List.take_left' (List.length_replicate _ _)
    have h2 : List.take N (List.replicate N 'a' ++ ['b']) = List.replicate N 'a' :=
      List.take_left' (List.length_replicate _ _)
    rw [h1, h2]
  have hkey2 : dedupKey j2 ≠ dedupKey j1 := fun h => hkey h.symm
  have h1 : deduplicate [j1, j2] = [j1, j2] := by
    simp [deduplicate, dedupBy, dedupByGo, hkey2]
  have h2 : dedupBy (specKeyTrunc N) [j1, j2] = [j1] := by
    simp [dedupBy, dedupByGo, htrunc.symm]
  have hcontr := hN [j1, j2]
  rw [h1, h2] at hcontr
  exact absurd (congrArg List.length hcontr) (by simp)

/-! Rule-order lemmas for the keyword classifiers. -/

theorem isPrefOf_map (f : Char → Char) :
    ∀ {w t : List Char}, isPrefOf w t = true → isPrefOf (w.map f) (t.map f) = true := by
  intro w
  induction w with
  | nil => intro t h; rfl
  | cons a as ih =>
    intro t h
    cases t with
    | nil => simp [isPrefOf] at h
    | cons b bs =>
      simp only [isPrefOf, Bool.and_eq_true, beq_iff_eq, List.map_cons] at h ⊢
      exact ⟨by rw [h.1], ih h.2⟩

theorem isSubOf_map (f : Char → Char) :
    ∀ {w t : List Char}, isSubOf w t = true → isSubOf (w.map f) (t.map f) = true := by
  intro w t
  induction t with
  | nil =>
    intro h
    simp only [isSubOf, List.isEmpty_iff] at h
    simp [isSubOf, h]
  | cons c ts ih =>
    intro h
    simp only [isSubOf, Bool.or_eq_true, List.map_cons] at h ⊢
    rcases h with h | h
    · left
      have := isPrefOf_map f h
      simpa using this
    · right; exact ih h

/-- First-match evaluation of an ordered rule table. -/
def firstTag : List (List String × String) → List Char → String
  | [], _ => "Full-Time"
  | r :: rs, t => if ruleHits t r then r.2 else firstTag rs t

theorem detect_type_eq_firstTag (text : Option String) :
    detect_type text = firstTag typeRules (pyLower (text.getD "")) := by
  simp only [detect_type, typeRules, firstTag, ruleHits]

theorem firstTag_of_first (t : List Char) :
    ∀ (rs : List (List String × String)) (i : Nat) (hi : i < rs.length),
      ruleHits t (rs.get ⟨i, hi⟩) = true →
      (∀ (k : Nat) (hk : k < rs.length), k < i → ruleHits t (rs.get ⟨k, hk⟩) = false) →
      firstTag rs t = (rs.get ⟨i, hi⟩).2 := by
  intro rs
  induction rs with
  | nil => intro i hi; simp at hi
  | cons r rest ih =>
    intro i hi hhit hk
    cases i with
    | zero => simp_all [firstTag]
    | succ i2 =>
      have h0 : ruleHits t r = false := hk 0 (Nat.succ_pos _) (Nat.succ_pos _)
      have hk2 : ∀ (k : Nat) (hk2 : k < rest.length), k < i2 →
          ruleHits t (rest.get ⟨k, hk2⟩) = false := by
        intro k hkl hki
        exact hk (k + 1) (Nat.succ_lt_succ hkl) (Nat.succ_lt_succ hki)
      simp only [firstTag, h0, Bool.false_eq_true, if_false]
      exact ih i2 (Nat.lt_of_succ_lt_succ hi) hhit hk2

theorem firstTag_default (t : List Char) :
    ∀ (rs : List (List String × String)),
      (∀ r ∈ rs, ruleHits t r = false) → firstTag rs t = "Full-Time" := by
  intro rs
  induction rs with
  | nil => intro _; rfl
  | cons r rest ih =>
    intro h
    simp only [firstTag, h r (List.mem_cons_self _ _), Bool.false_eq_true, if_false]
    exact ih fun r2 hr2 => h r2 (List.mem_cons_of_mem _ hr2)

/-- Claim C5: the job-type classifier applies its rules in the fixed source
order and the first matching rule wins: when rule `i` fires, a later rule `j`
also fires, and no rule before `i` fires, the result is rule `i`'s tag; any
text containing both "intern" and "government" classifies as Internship; a
text firing no rule classifies as Full-Time. -/
theorem C5_rule_order :
    (∀ (text : Option String) (i j : Nat) (hi : i < typeRules.length)
        (hj : j < typeRules.length), i < j →
      ruleHits (pyLower (text.getD "")) (typeRules.get ⟨i, hi⟩) = true →
      ruleHits (pyLower (text.getD "")) (typeRules.get ⟨j, hj⟩) = true →
      (∀ (k : Nat) (hk : k < typeRules.length), k < i →
        ruleHits (pyLower (text.getD "")) (typeRules.get ⟨k, hk⟩) = false) →
      detect_type text = (typeRules.get ⟨i, hi⟩).2)
    ∧ (∀ s : String, isSubOf "intern".data s.data = true →
        isSubOf "government".data s.data = true →
        detect_type (some s) = "Internship")
    ∧ (∀ text : Option String,
        (∀ r ∈ typeRules, ruleHits (pyLower (text.getD "")) r = false) →
        detect_type text = "Full-Time") := by
  refine ⟨?_, ?_, ?_⟩
  · intro text i j hi hj _ hhi _ hk
    rw [detect_type_eq_firstTag]
    exact firstTag_of_first (pyLower (text.getD "")) typeRules i hi hhi hk
  · intro s h1 _
    have h1l : isSubOf "intern".data (pyLower s) = true := by
      have hm := isSubOf_map Char.toLower h1
      have he : "intern".data.map Char.toLower = "intern".data := by decide
      rw [he] at hm
      exact hm
    simp [detect_type, List.any, h1l]
  · intro text h
    rw [detect_type_eq_firstTag]
    exact firstTag_default (pyLower (text.getD "")) typeRules h

/-- Witness for C5: a text firing the Part-Time rule (index 1) and the
Government rule (index 2) but not the Internship rule classifies Part-Time,
and a text with both "intern" and "government" classifies Internship. -/
theorem C5_rule_order_witness :
    detect_type (some "casual county clerk") = "Part-Time"
    ∧ detect_type (some "government internship 2025") = "Internship" :=
  ⟨C5_rule_order.1 (some "casual county clerk") 1 2 (by decide) (by decide)
      (by decide) (by decide) (by decide)
      (fun k hk hlt => by
        have hk0 : k = 0 := by omega
        subst hk0
        have hg : typeRules.get ⟨0, hk⟩
            = ((["intern","attachment","graduate trainee"] : List String), "Internship") := rfl
        rw [hg]
        decide),
   C5_rule_order.2.1 "government internship 2025" (by decide) (by decide)⟩

/-- Claim C6, amended: the email extractor returns the leftmost regex match
with no denylist filtering: it returns none exactly when no position of the
text matches, and a returned address is the match at the first matching
position. -/
theorem C6_amended (l : List Char) :
    (firstEmail l = none → ∀ i : Nat, emailMatchAt (l.drop i) = none)
    ∧ (∀ e : List Char, firstEmail l = some e →
        ∃ i : Nat, emailMatchAt (l.drop i) = some e
          ∧ ∀ j : Nat, j < i → emailMatchAt (l.drop j) = none) := by
  induction l with
  | nil =>
    constructor
    · intro _ i
      rw [List.drop_nil]
      rfl
    · intro e he
      simp [firstEmail] at he
  | cons c cs ih =>
    constructor
    · intro hnone i
      cases hm : emailMatchAt (c :: cs) with
      | some e => simp [firstEmail, hm] at hnone
      | none =>
        have hrest : firstEmail cs = none := by
          simpa [firstEmail, hm] using hnone
        cases i with
        | zero => simpa using hm
        | succ i2 => simpa using ih.1 hrest i2
    · intro e he
      cases hm : emailMatchAt (c :: cs) with
      | some e2 =>
        have heq : e2 = e := by
          simpa [firstEmail, hm] using he
        subst heq
        exact ⟨0, by simpa using hm, fun j hj => absurd hj (Nat.not_lt_zero j)⟩
      | none =>
        have hrest : firstEmail cs = some e := by
          simpa [firstEmail, hm] using he
        obtain ⟨i, hi1, hi2⟩ := ih.2 e hrest
        refine ⟨i + 1, by simpa using hi1, ?_⟩
        intro j hj
        cases j with
        | zero => simpa using hm
        | succ j2 => simpa using hi2 j2 (Nat.lt_of_succ_lt_succ hj)

/-- Text used to exercise the email extractor in the C6 witness. -/
def emailTextW : List Char := "apply via hr@acme.co.ke today".data

/-- Witness for C6: on a concrete text the returned address is the match at
the first matching position. -/
theorem C6_amended_witness :
    ∃ i : Nat, emailMatchAt (emailTextW.drop i) = some "hr@acme.co.ke".data
      ∧ ∀ j : Nat, j < i → emailMatchAt (emailTextW.drop j) = none :=
  (C6_amended emailTextW).2 "hr@acme.co.ke".data (by decide)

/-- A BrighterMonday listing block whose detail page carries only a
denylisted address. -/
def bmRawW : RawItem :=
  { title_el := some "Clerk", company_el := none, location_el := none,
    deadline_el := none, salary_el := none, link_el := some "/j/1",
    desc_el := some "Contact noreply@example.com now", detail_ok := true,
    now := "2025-01-01T00:00:00" }

/-- Claim C6, counterexample: the extractor returns the denylisted address
`noreply@example.com` (the claim requires the empty string here), and that
address is stored as `apply_email` by the BrighterMonday adapter. -/
theorem C6_counterexample :
    extract_email "Send CV to noreply@example.com before Friday" = "noreply@example.com"
    ∧ specDenylisted "noreply@example.com" = true
    ∧ Option.map (fun j => j.apply_email) (bm_item 0 bmRawW) = some "noreply@example.com" := by
  refine ⟨by decide, by decide, by decide⟩

/-! Ordering lemmas for the snapshot sort. -/

theorem lexLe_refl (l : List Char) : lexLe l l = true := by
  induction l with
  | nil => rfl
  | cons a as ih => simp [lexLe, Nat.lt_irrefl, ih]

theorem lexLe_total (a b : List Char) : lexLe a b || lexLe b a := by
  induction a generalizing b with
  | nil => simp [lexLe]
  | cons x xs ih =>
    cases b with
    | nil => simp [lexLe]
    | cons y ys =>
      simp only [lexLe]
      rcases Nat.lt_trichotomy x.toNat y.toNat with h | h | h
      · simp [h]
      · have h2 : ¬ y.toNat < x.toNat := by omega
        have h3 : ¬ x.toNat < y.toNat := by omega
        simpa [h2, h3] using ih ys
      · simp [h, Nat.lt_asymm h]

theorem lexLe_trans :
    ∀ (a b c : List Char), lexLe a b = true → lexLe b c = true → lexLe a c = true := by
  intro a
  induction a with
  | nil => intro b c _ _; rfl
  | cons x xs ih =>
    intro b c h1 h2
    cases b with
    | nil => simp [lexLe] at h1
    | cons y ys =>
      cases c with
      | nil => simp [lexLe] at h2
      | cons z zs =>
        simp only [lexLe] at h1 h2 ⊢
        by_cases hxy : x.toNat < y.toNat
        · by_cases hyz : y.toNat < z.toNat
          · simp [Nat.lt_trans hxy hyz]
          · by_cases hzy : z.toNat < y.toNat
            · simp [hyz, hzy] at h2
            · have hxz : x.toNat < z.toNat := by omega
              simp [hxz]
        · by_cases hyx : y.toNat < x.toNat
          · simp [hxy, hyx] at h1
          · simp only [hxy, hyx, Bool.false_eq_true, if_false] at h1
            by_cases hyz : y.toNat < z.toNat
            · have hxz : x.toNat < z.toNat := by omega
              simp [hxz]
            · by_cases hzy : z.toNat < y.toNat
              · simp [hyz, hzy] at h2
              · have hxz : ¬ x.toNat < z.toNat := by omega
                have hzx : ¬ z.toNat < x.toNat := by omega
                simp only [hyz, hzy, Bool.false_eq_true, if_false] at h2
                simp only [hxz, hzx, Bool.false_eq_true, if_false]
                exact ih ys zs h1 h2

theorem jobLe_trans (a b c : Job) :
    jobLe a b = true → jobLe b c = true → jobLe a c = true :=
  fun h1 h2 => lexLe_trans _ _ _ h2 h1

theorem jobLe_total (a b : Job) : jobLe a b || jobLe b a :=
  lexLe_total b.scraped_at.data a.scraped_at.data

theorem filter_mergeSort_scraped_at (l : List Job) (v : String) :
    (l.mergeSort jobLe).filter (fun j => j.scraped_at == v)
      = l.filter (fun j => j.scraped_at == v) := by
  have hall : ∀ x ∈ l.filter (fun j => j.scraped_at == v), x.scraped_at == v :=
    fun x hx => (List.mem_filter.mp hx).2
  have hpair : (l.filter (fun j => j.scraped_at == v)).Pairwise (fun a b => jobLe a b) := by
    apply List.pairwise_of_forall_mem_list
    intro a ha b hb
    have hav : a.scraped_at = v := by simpa using hall a ha
    have hbv : b.scraped_at = v := by simpa using hall b hb
    show jobLe a b = true
    rw [jobLe, hav, hbv]
    exact lexLe_refl v.data
  have hsub : List.Sublist (l.filter (fun j => j.scraped_at == v)) (l.mergeSort jobLe) :=
    List.sublist_mergeSort jobLe_trans jobLe_total hpair (List.filter_sublist l)
  have hidem : (l.filter (fun j => j.scraped_at == v)).filter (fun j => j.scraped_at == v)
      = l.filter (fun j => j.scraped_at == v) :=
    List.filter_eq_self.mpr hall
  have hsub2 : List.Sublist (l.filter (fun j => j.scraped_at == v))
      ((l.mergeSort jobLe).filter (fun j => j.scraped_at == v)) := by
    have hf := hsub.filter (fun j => j.scraped_at == v)
    rwa [hidem] at hf
  have hlen : ((l.mergeSort jobLe).filter (fun j => j.scraped_at == v)).length
      = (l.filter (fun j => j.scraped_at == v)).length :=
    ((List.mergeSort_perm l jobLe).filter _).length_eq
  exact (hsub2.eq_of_length hlen.symm).symm

/-- Claim C1: after a run, the published snapshot's `total` equals the length
of its `jobs`, `jobs` is sorted by `scraped_at` descending (adjacent pairs),
and the sort is stable: within each equal-`scraped_at` class the records keep
their post-dedup relative order. -/
theorem C1_snapshot_invariant (results : List (Except String (List Job))) (now : String) :
    (run_all results now).total = (run_all results now).jobs.length
    ∧ (run_all results now).jobs.Chain'
        (fun a b => lexLe b.scraped_at.data a.scraped_at.data = true)
    ∧ ∀ v : String,
        (run_all results now).jobs.filter (fun j => j.scraped_at == v)
          = (deduplicate (collect results)).filter (fun j => j.scraped_at == v) := by
  refine ⟨rfl, ?_, ?_⟩
  · have hp := List.sorted_mergeSort jobLe_trans jobLe_total
      (deduplicate (collect results))
    exact List.Pairwise.chain' hp
  · intro v
    exact filter_mergeSort_scraped_at (deduplicate (collect results)) v

/-! Non-empty-title lemmas for the adapters. -/

theorem itemsGo_mem_title {item : Nat → RawItem → Option Job}
    (hitem : ∀ (n : Nat) (r : RawItem) (j : Job), item n r = some j → j.title ≠ "") :
    ∀ (rs : List RawItem) (n : Nat) (j : Job), j ∈ itemsGo item n rs → j.title ≠ "" := by
  intro rs
  induction rs with
  | nil => intro n j hj; simp [itemsGo] at hj
  | cons r rest ih =>
    intro n j hj
    cases hcall : item n r with
    | none =>
      rw [itemsGo, hcall] at hj
      exact ih n j hj
    | some j2 =>
      rw [itemsGo, hcall] at hj
      rcases List.mem_cons.mp hj with rfl | hj2
      · exact hitem n r j hcall
      · exact ih (n + 1) j hj2

theorem myjob_item_title (n : Nat) (r : RawItem) (j : Job) :
    myjob_item n r = some j → j.title ≠ "" := by
  intro h
  by_cases ht : clean r.title_el = ""
  · simp [myjob_item, ht] at h
  · simp only [myjob_item, ht, if_false] at h
    obtain rfl := Option.some.inj h
    exact ht

theorem bm_item_title (n : Nat) (r : RawItem) (j : Job) :
    bm_item n r = some j → j.title ≠ "" := by
  intro h
  by_cases ht : clean r.title_el = ""
  · simp [bm_item, ht] at h
  · simp only [bm_item, ht, if_false] at h
    obtain rfl := Option.some.inj h
    exact ht

theorem fuzu_item_title (n : Nat) (r : RawItem) (j : Job) :
    fuzu_item n r = some j → j.title ≠ "" := by
  intro h
  by_cases ht : clean r.title_el = ""
  · simp [fuzu_item, ht] at h
  · simp only [fuzu_item, ht, if_false] at h
    obtain rfl := Option.some.inj h
    exact ht

theorem psc_item_title (n : Nat) (r : RawItem) (j : Job) :
    psc_item n r = some j → j.title ≠ "" := by
  intro h
  by_cases ht : clean r.title_el = "" ∨ (clean r.title_el).length < 5
  · simp only [psc_item, if_pos ht] at h
    exact absurd h (by simp)
  · simp only [psc_item, if_neg ht] at h
    obtain rfl := Option.some.inj h
    exact fun he => ht (Or.inl he)

theorem ngo_item_title (n : Nat) (r : RawItem) (j : Job) :
    ngo_item n r = some j → j.title ≠ "" := by
  intro h
  by_cases ht : clean r.title_el = ""
  · simp [ngo_item, ht] at h
  · simp only [ngo_item, ht, if_false] at h
    obtain rfl := Option.some.inj h
    exact ht

theorem cp_item_title (n : Nat) (r : RawItem) (j : Job) :
    cp_item n r = some j → j.title ≠ "" := by
  intro h
  by_cases ht : clean r.title_el = ""
  · simp [cp_item, ht] at h
  · simp only [cp_item, ht, if_false] at h
    obtain rfl := Option.some.inj h
    exact ht

theorem mem_collect :
    ∀ (results : List (Except String (List Job))) (x : Job),
      x ∈ collect results → ∃ js, Except.ok js ∈ results ∧ x ∈ js := by
  intro results
  induction results with
  | nil => intro x hx; simp [collect] at hx
  | cons r rest ih =>
    intro x hx
    cases r with
    | ok js =>
      rw [collect] at hx
      rcases List.mem_append.mp hx with hx1 | hx2
      · exact ⟨js, List.mem_cons_self _ _, hx1⟩
      · obtain ⟨js2, hjs2, hxj⟩ := ih x hx2
        exact ⟨js2, List.mem_cons_of_mem _ hjs2, hxj⟩
    | error e =>
      rw [collect] at hx
      obtain ⟨js2, hjs2, hxj⟩ := ih x hx
      exact ⟨js2, List.mem_cons_of_mem _ hjs2, hxj⟩

theorem mem_run_all_jobs {results : List (Except String (List Job))} {now : String}
    {j : Job} (h : j ∈ (run_all results now).jobs) : j ∈ collect results := by
  have h1 : j ∈ (deduplicate (collect results)).mergeSort jobLe := h
  have h2 : j ∈ deduplicate (collect results) := List.mem_mergeSort.mp h1
  exact (dedupByGo_sublist dedupKey (collect results) []).subset h2

/-- Claim C7: every record emitted by each of the six adapters has a
non-empty title (blocks with an empty cleaned title are skipped), and hence
every record of a published snapshot built from adapter outputs with
non-empty titles has a non-empty title. -/
theorem C7_nonempty_titles :
    (∀ (rs : List RawItem) (j : Job), j ∈ scrape_myjobinkenya rs → j.title ≠ "")
    ∧ (∀ (rs : List RawItem) (j : Job), j ∈ scrape_brightermonday rs → j.title ≠ "")
    ∧ (∀ (rs : List RawItem) (j : Job), j ∈ scrape_fuzu rs → j.title ≠ "")
    ∧ (∀ (rs : List RawItem) (j : Job), j ∈ scrape_public_service rs → j.title ≠ "")
    ∧ (∀ (rs : List RawItem) (j : Job), j ∈ scrape_ngo_jobs rs → j.title ≠ "")
    ∧ (∀ (rs : List RawItem) (j : Job), j ∈ scrape_career_point rs → j.title ≠ "")
    ∧ (∀ (results : List (Except String (List Job))) (now : String) (j : Job),
        (∀ js, Except.ok js ∈ results → ∀ x ∈ js, x.title ≠ "") →
        j ∈ (run_all results now).jobs → j.title ≠ "") := by
  refine ⟨fun rs j hj => itemsGo_mem_title myjob_item_title rs 0 j hj,
          fun rs j hj => itemsGo_mem_title bm_item_title rs 0 j hj,
          fun rs j hj => itemsGo_mem_title fuzu_item_title rs 0 j hj,
          fun rs j hj => itemsGo_mem_title psc_item_title rs 0 j hj,
          fun rs j hj => itemsGo_mem_title ngo_item_title rs 0 j hj,
          fun rs j hj => itemsGo_mem_title cp_item_title rs 0 j hj,
          ?_⟩
  intro results now j hok hj
  obtain ⟨js, hjs, hxj⟩ := mem_collect results j (mem_run_all_jobs hj)
  exact hok js hjs j hxj

/-- Witness for C7: the snapshot built from one adapter result keeps its
record's title non-empty. -/
theorem C7_nonempty_titles_witness : jobAcme1.title ≠ "" := by
  have hjobs : (run_all [Except.ok [jobAcme1]] "t").jobs = [jobAcme1] := by
    simp [run_all, deduplicate, dedupBy, dedupByGo]
  refine C7_nonempty_titles.2.2.2.2.2.2 [Except.ok [jobAcme1]] "t" jobAcme1 ?_ ?_
  · intro js hjs x hx
    simp only [List.mem_singleton, Except.ok.injEq] at hjs
    subst hjs
    simp only [List.mem_singleton] at hx
    subst hx
    decide
  · rw [hjobs]
    exact List.mem_singleton.mpr rfl

/-- Claim C9, amended: publication is not atomic. The observable file
contents while `publish` replaces `prev` by `content` are exactly the
previous contents or an arbitrary prefix of the new contents (the empty
prefix being the freshly truncated file); and every serialized snapshot is
non-empty, so the truncated state coincides with no complete snapshot. -/
theorem C9_amended :
    (∀ (prev content o : String),
      o ∈ observableDuring prev content
        ↔ o = prev ∨ ∃ k, k ≤ content.length ∧ o = ⟨content.data.take k⟩)
    ∧ (∀ s : Snapshot, 0 < (dumpSnapshot s).length) := by
  constructor
  · intro prev content o
    simp only [observableDuring, writeInPlaceStates, List.mem_cons, List.mem_map,
      List.mem_range]
    constructor
    · rintro (h | ⟨k, hk, hko⟩)
      · exact Or.inl h
      · exact Or.inr ⟨k, by omega, hko.symm⟩
    · rintro (h | ⟨k, hk, hko⟩)
      · exact Or.inl h
      · exact Or.inr ⟨k, by omega, hko.symm⟩
  · intro s
    have h4 : (0 : Nat) < ("\x7b\n  " : String).length := by decide
    simp only [dumpSnapshot, String.length_append]
    omega

/-- Serialized form of the empty first snapshot, used in the C9 counterexample. -/
def snapPrevW : Snapshot :=
  { total := 0, scraped_at := "2025-01-01T00:00:00", jobs := [] }

/-- Serialized form of the second snapshot, used in the C9 counterexample. -/
def snapNewW : Snapshot :=
  { total := 1, scraped_at := "2025-01-01T01:00:00", jobs := [jobAcme1] }

/-- Claim C9, counterexample: during the in-place write that replaces the
serialized first snapshot by the serialized second one, a reader can observe
the truncated (empty) file, which is neither the previous nor the new
complete snapshot. -/
theorem C9_counterexample :
    run_all [] "2025-01-01T00:00:00" = snapPrevW
    ∧ run_all [Except.ok [jobAcme1]] "2025-01-01T01:00:00" = snapNewW
    ∧ "" ∈ observableDuring (dumpSnapshot snapPrevW) (dumpSnapshot snapNewW)
    ∧ "" ≠ dumpSnapshot snapPrevW
    ∧ "" ≠ dumpSnapshot snapNewW := by
  refine ⟨?_, ?_, ?_, by decide, by decide⟩
  · simp [run_all, deduplicate, dedupBy, dedupByGo, snapPrevW]
  · simp [run_all, deduplicate, dedupBy, dedupByGo, snapNewW]
  · exact List.mem_cons_of_mem _ (List.mem_map.mpr
      ⟨0, List.mem_range.mpr (Nat.succ_pos _), rfl⟩)

/-! Structure lemmas for `words` and `clean`. -/

/-- A word of a split: non-empty and free of whitespace. -/
def goodWord (w : List Char) : Prop :=
  w ≠ [] ∧ ∀ c ∈ w, pyIsSpace c = false

theorem words_allspace :
    ∀ (s : List Char), (∀ c ∈ s, pyIsSpace c = true) → words s = [] := by
  intro s
  induction s with
  | nil => intro _; rfl
  | cons c cs ih =>
    intro h
    rw [words_cons_space (h c (List.mem_cons_self _ _))]
    exact ih fun d hd => h d (List.mem_cons_of_mem _ hd)

theorem takeWhile_allspace (s : List Char) (h : ∀ c ∈ s, pyIsSpace c = true) :
    s.takeWhile (fun d => !pyIsSpace d) = [] := by
  cases s with
  | nil => rfl
  | cons c cs => simp [List.takeWhile_cons, h c (List.mem_cons_self _ _)]

theorem dropWhile_allspace (s : List Char) (h : ∀ c ∈ s, pyIsSpace c = true) :
    s.dropWhile (fun d => !pyIsSpace d) = s := by
  cases s with
  | nil => rfl
  | cons c cs => simp [List.dropWhile_cons, h c (List.mem_cons_self _ _)]

theorem mem_splitWs_nonspace :
    ∀ (l : List Char) (w : List Char), w ∈ splitWs l → ∀ c ∈ w, pyIsSpace c = false := by
  intro l
  induction l with
  | nil =>
    intro w hw c hc
    simp [splitWs] at hw
    subst hw
    simp at hc
  | cons a cs ih =>
    intro w hw c hc
    by_cases ha : pyIsSpace a
    · rw [splitWs, if_pos ha] at hw
      rcases List.mem_cons.mp hw with rfl | hw2
      · simp at hc
      · exact ih w hw2 c hc
    · have haf : pyIsSpace a = false := by simpa using ha
      rw [splitWs, if_neg ha] at hw
      cases hs : splitWs cs with
      | nil => exact absurd hs (splitWs_ne_nil cs)
      | cons w2 ws =>
        rw [hs] at hw
        rcases List.mem_cons.mp hw with rfl | hw2
        · rcases List.mem_cons.mp hc with rfl | hc2
          · exact haf
          · exact ih w2 (hs ▸ List.mem_cons_self _ _) c hc2
        · exact ih w (hs ▸ List.mem_cons_of_mem _ hw2) c hc

theorem words_good (l : List Char) (w : List Char) (hw : w ∈ words l) : goodWord w := by
  rw [words] at hw
  obtain ⟨hmem, hne⟩ := List.mem_filter.mp hw
  refine ⟨?_, mem_splitWs_nonspace l w hmem⟩
  intro he
  subst he
  simp at hne

theorem words_append_spaces :
    ∀ (n : Nat) (l : List Char), l.length ≤ n →
      ∀ suffix : List Char, (∀ c ∈ suffix, pyIsSpace c = true) →
      words (l ++ suffix) = words l := by
  intro n
  induction n with
  | zero =>
    intro l hl suffix hs
    have hl0 : l = [] := List.length_eq_zero.mp (Nat.le_zero.mp hl)
    subst hl0
    rw [List.nil_append, words_nil]
    exact words_allspace suffix hs
  | succ n ih =>
    intro l hl suffix hs
    cases l with
    | nil =>
      rw [List.nil_append, words_nil]
      exact words_allspace suffix hs
    | cons c cs =>
      have hcs : cs.length ≤ n := by
        simp only [List.length_cons] at hl
        omega
      by_cases hc : pyIsSpace c
      · rw [List.cons_append, words_cons_space hc, words_cons_space hc]
        exact ih cs hcs suffix hs
      · have hcf : pyIsSpace c = false := by simpa using hc
        rw [List.cons_append, words_cons_nonspace hcf, words_cons_nonspace hcf]
        by_cases hall : ∀ a ∈ cs, (!pyIsSpace a) = true
        · have ht1 : (cs ++ suffix).takeWhile (fun d => !pyIsSpace d)
              = cs ++ suffix.takeWhile (fun d => !pyIsSpace d) :=
            List.takeWhile_append_of_pos hall
          have hd1 : (cs ++ suffix).dropWhile (fun d => !pyIsSpace d)
              = suffix.dropWhile (fun d => !pyIsSpace d) :=
            List.dropWhile_append_of_pos hall
          rw [ht1, takeWhile_allspace suffix hs, hd1, dropWhile_allspace suffix hs,
            List.append_nil, List.takeWhile_eq_self_iff.mpr hall,
            List.dropWhile_eq_nil_iff.mpr hall, words_nil, words_allspace suffix hs]
        · have hlen : (cs.takeWhile (fun d => !pyIsSpace d)).length ≠ cs.length := by
            intro he
            exact hall (List.takeWhile_eq_self_iff.mp
              ((List.takeWhile_sublist _).eq_of_length he))
          have ht : (cs ++ suffix).takeWhile (fun d => !pyIsSpace d)
              = cs.takeWhile (fun d => !pyIsSpace d) := by
            rw [List.takeWhile_append]
            exact if_neg hlen
          have hne : ¬ ((cs.dropWhile (fun d => !pyIsSpace d)).isEmpty = true) := by
            rw [List.isEmpty_iff, List.dropWhile_eq_nil_iff]
            exact hall
          have hd : (cs ++ suffix).dropWhile (fun d => !pyIsSpace d)
              = cs.dropWhile (fun d => !pyIsSpace d) ++ suffix := by
            rw [List.dropWhile_append]
            exact if_neg hne
          rw [ht, hd]
          have hdlen : (cs.dropWhile (fun d => !pyIsSpace d)).length ≤ n :=
            Nat.le_trans (List.Sublist.length_le (List.dropWhile_sublist _)) hcs
          rw [ih (cs.dropWhile (fun d => !pyIsSpace d)) hdlen suffix hs]

theorem words_dropWhile_space (l : List Char) :
    words (l.dropWhile pyIsSpace) = words l := by
  induction l with
  | nil => rfl
  | cons c cs ih =>
    by_cases hc : pyIsSpace c
    · rw [List.dropWhile_cons, if_pos hc, words_cons_space hc]
      exact ih
    · rw [List.dropWhile_cons, if_neg hc]

theorem words_stripL (l : List Char) : words (stripL l) = words l := by
  have key : ∀ m : List Char, words ((m.reverse.dropWhile pyIsSpace).reverse) = words m := by
    intro m
    have h := congrArg List.reverse (List.takeWhile_append_dropWhile pyIsSpace m.reverse)
    rw [List.reverse_append, List.reverse_reverse] at h
    have hsuf : ∀ c ∈ (m.reverse.takeWhile pyIsSpace).reverse, pyIsSpace c = true := by
      intro c hc
      exact List.mem_takeWhile_imp (List.mem_reverse.mp hc)
    calc words ((m.reverse.dropWhile pyIsSpace).reverse)
        = words ((m.reverse.dropWhile pyIsSpace).reverse
            ++ (m.reverse.takeWhile pyIsSpace).reverse) :=
          (words_append_spaces _ _ Nat.le.refl _ hsuf).symm
      _ = words m := by rw [h]
  rw [stripL, key, words_dropWhile_space]

theorem words_of_goodWord (w : List Char) (hw : goodWord w) : words w = [w] := by
  obtain ⟨hne, hns⟩ := hw
  cases w with
  | nil => exact absurd rfl hne
  | cons c cw =>
    have hc : pyIsSpace c = false := hns c (List.mem_cons_self _ _)
    have hall : ∀ a ∈ cw, (!pyIsSpace a) = true := by
      intro a ha
      simp [hns a (List.mem_cons_of_mem _ ha)]
    rw [words_cons_nonspace hc, List.takeWhile_eq_self_iff.mpr hall,
      List.dropWhile_eq_nil_iff.mpr hall, words_nil]

theorem words_join_step (w rest : List Char) (hw : goodWord w) :
    words (w ++ ' ' :: rest) = w :: words rest := by
  obtain ⟨hne, hns⟩ := hw
  cases w with
  | nil => exact absurd rfl hne
  | cons c cw =>
    have hc : pyIsSpace c = false := hns c (List.mem_cons_self _ _)
    have hall : ∀ a ∈ cw, (!pyIsSpace a) = true := by
      intro a ha
      simp [hns a (List.mem_cons_of_mem _ ha)]
    have hsp : pyIsSpace ' ' = true := rfl
    rw [List.cons_append, words_cons_nonspace hc,
      List.takeWhile_append_of_pos hall, List.dropWhile_append_of_pos hall]
    rw [show (' ' :: rest).takeWhile (fun d => !pyIsSpace d) = [] by
        simp [List.takeWhile_cons, hsp],
      show (' ' :: rest).dropWhile (fun d => !pyIsSpace d) = ' ' :: rest by
        simp [List.dropWhile_cons, hsp],
      List.append_nil, words_cons_space hsp]

theorem words_joinWords :
    ∀ ws : List (List Char), (∀ w ∈ ws, goodWord w) → words (joinWords ws) = ws := by
  intro ws
  induction ws with
  | nil => intro _; rfl
  | cons w ws2 ih =>
    intro h
    cases ws2 with
    | nil =>
      rw [joinWords]
      exact words_of_goodWord w (h w (List.mem_cons_self _ _))
    | cons w2 ws3 =>
      rw [joinWords, words_join_step _ _ (h w (List.mem_cons_self _ _))]
      rw [ih fun x hx => h x (List.mem_cons_of_mem _ hx)]

theorem cleanL_idem (l : List Char) : cleanL (cleanL l) = cleanL l := by
  have hgood : ∀ w ∈ words (stripL l), goodWord w :=
    fun w hw => words_good (stripL l) w hw
  rw [cleanL, words_stripL, cleanL, words_joinWords _ hgood]

/-! Canonical-whitespace checkers for the output of `clean`. -/

/-- No two adjacent whitespace characters. -/
def noWsRun : List Char → Bool
  | [] => true
  | [_] => true
  | a :: b :: rest => !(pyIsSpace a && pyIsSpace b) && noWsRun (b :: rest)

theorem noWsRun_word_append (w rest : List Char)
    (hw : ∀ c ∈ w, pyIsSpace c = false) (hrest : noWsRun rest = true) :
    noWsRun (w ++ rest) = true := by
  induction w with
  | nil => simpa using hrest
  | cons a w2 ih =>
    have haf : pyIsSpace a = false := hw a (List.mem_cons_self _ _)
    have hw2 : ∀ c ∈ w2, pyIsSpace c = false :=
      fun c hc => hw c (List.mem_cons_of_mem _ hc)
    cases w2 with
    | nil =>
      cases rest with
      | nil => rfl
      | cons b rs =>
        show (!(pyIsSpace a && pyIsSpace b) && noWsRun (b :: rs)) = true
        simp [haf, hrest]
    | cons a2 w3 =>
      have ha2f : pyIsSpace a2 = false := hw2 a2 (List.mem_cons_self _ _)
      show (!(pyIsSpace a && pyIsSpace a2) && noWsRun (a2 :: (w3 ++ rest))) = true
      have := ih hw2
      simp only [List.cons_append] at this
      simp [haf, this]

theorem joinWords_cons_eq_append (w : List Char) (ws : List (List Char)) :
    ∃ t, joinWords (w :: ws) = w ++ t := by
  cases ws with
  | nil => exact ⟨[], by rw [joinWords, List.append_nil]⟩
  | cons w2 ws2 => exact ⟨' ' :: joinWords (w2 :: ws2), rfl⟩

theorem noWsRun_joinWords :
    ∀ ws : List (List Char), (∀ w ∈ ws, goodWord w) → noWsRun (joinWords ws) = true := by
  intro ws
  induction ws with
  | nil => intro _; rfl
  | cons w ws2 ih =>
    intro h
    have hgw := h w (List.mem_cons_self _ _)
    cases ws2 with
    | nil =>
      rw [joinWords]
      have := noWsRun_word_append w [] hgw.2 rfl
      simpa using this
    | cons w2 ws3 =>
      rw [joinWords]
      apply noWsRun_word_append w _ hgw.2
      have hgw2 := h w2 (List.mem_cons_of_mem _ (List.mem_cons_self _ _))
      obtain ⟨t, ht⟩ := joinWords_cons_eq_append w2 ws3
      have hrec : noWsRun (joinWords (w2 :: ws3)) = true :=
        ih fun x hx => h x (List.mem_cons_of_mem _ hx)
      obtain ⟨c, cw, hc⟩ : ∃ c cw, w2 = c :: cw := by
        cases w2 with
        | nil => exact absurd rfl hgw2.1
        | cons c cw => exact ⟨c, cw, rfl⟩
      have hcf : pyIsSpace c = false := hgw2.2 c (hc ▸ List.mem_cons_self _ _)
      rw [ht, hc, List.cons_append]
      show (!(pyIsSpace ' ' && pyIsSpace c) && noWsRun (c :: (cw ++ t))) = true
      have hrec2 : noWsRun (c :: (cw ++ t)) = true := by
        have : joinWords (w2 :: ws3) = c :: (cw ++ t) := by
          rw [ht, hc, List.cons_append]
        rwa [this] at hrec
      simp [hcf, hrec2]

theorem head_joinWords (ws : List (List Char)) (h : ∀ w ∈ ws, goodWord w) :
    (joinWords ws).head?.all (fun c => !pyIsSpace c) = true := by
  cases ws with
  | nil => rfl
  | cons w ws2 =>
    obtain ⟨t, ht⟩ := joinWords_cons_eq_append w ws2
    have hgw := h w (List.mem_cons_self _ _)
    obtain ⟨c, cw, hc⟩ : ∃ c cw, w = c :: cw := by
      cases w with
      | nil => exact absurd rfl hgw.1
      | cons c cw => exact ⟨c, cw, rfl⟩
    have hcf : pyIsSpace c = false := hgw.2 c (hc ▸ List.mem_cons_self _ _)
    rw [ht, hc, List.cons_append]
    simp [hcf]

theorem getLast_joinWords :
    ∀ ws : List (List Char), (∀ w ∈ ws, goodWord w) →
      (joinWords ws).getLast?.all (fun c => !pyIsSpace c) = true := by
  intro ws
  induction ws with
  | nil => intro _; rfl
  | cons w ws2 ih =>
    intro h
    have hgw := h w (List.mem_cons_self _ _)
    cases ws2 with
    | nil =>
      rw [joinWords]
      cases hg : w.getLast? with
      | none => simp
      | some a =>
        have ha : a ∈ w := List.mem_of_getLast?_eq_some hg
        simp [hgw.2 a ha]
    | cons w2 ws3 =>
      rw [joinWords, List.getLast?_append]
      have hrec : (joinWords (w2 :: ws3)).getLast?.all (fun c => !pyIsSpace c) = true :=
        ih fun x hx => h x (List.mem_cons_of_mem _ hx)
      obtain ⟨t, ht⟩ := joinWords_cons_eq_append w2 ws3
      have hgw2 := h w2 (List.mem_cons_of_mem _ (List.mem_cons_self _ _))
      obtain ⟨c, cw, hc⟩ : ∃ c cw, w2 = c :: cw := by
        cases w2 with
        | nil => exact absurd rfl hgw2.1
        | cons c cw => exact ⟨c, cw, rfl⟩
      have hJ : joinWords (w2 :: ws3) = c :: (cw ++ t) := by
        rw [ht, hc, List.cons_append]
      rw [hJ] at hrec
      rw [hJ, List.getLast?_cons_cons]
      cases hg : (c :: (cw ++ t)).getLast? with
      | none => simp at hg
      | some a =>
        rw [hg] at hrec
        simpa using hrec

/-- Claim C10: `clean` is idempotent (null/missing input yields the empty
string), and its output has no leading, trailing, or consecutive internal
whitespace. -/
theorem C10_clean_canonical :
    clean none = ""
    ∧ ∀ t : Option String,
        clean (some (clean t)) = clean t
        ∧ noWsRun (clean t).data = true
        ∧ (clean t).data.head?.all (fun c => !pyIsSpace c) = true
        ∧ (clean t).data.getLast?.all (fun c => !pyIsSpace c) = true := by
  refine ⟨rfl, ?_⟩
  intro t
  have hdata : (clean t).data = cleanL ((t.getD "").data) := rfl
  have hgood : ∀ w ∈ words (stripL ((t.getD "").data)), goodWord w :=
    fun w hw => words_good _ w hw
  refine ⟨?_, ?_, ?_, ?_⟩
  · show (⟨cleanL (clean t).data⟩ : String) = clean t
    rw [hdata, cleanL_idem]
    rfl
  · rw [hdata, cleanL]
    exact noWsRun_joinWords _ hgood
  · rw [hdata, cleanL]
    exact head_joinWords _ hgood
  · rw [hdata, cleanL]
    exact getLast_joinWords _ hgood

end JobsKenya
